import Mathlib

/-!
Shallow embedding of the dfsanalyzer core (src/core/util.py, src/core/ingest.py,
src/core/aggregate.py): name normalization, lineup/entry-name parsing, canonical
lineup keys, percentile computation, combo aggregation, user exposure and the
percentile/rank filter, together with theorems settling the specification claims.
-/

namespace DfsAnalyzer

/-- Python `\s` whitespace characters (ASCII range, which is all that survives
the ASCII fold performed before any whitespace handling in this code). -/
def isSpaceChar (c : Char) : Bool :=
  c = ' ' || c = '\t' || c = '\n' || c = '\r' || c = '\x0b' || c = '\x0c'

/-- Split a character list into maximal whitespace-free words, as Python
`str.split()` does (empty input or all-whitespace input gives no words). -/
def wordsAux : List Char → List Char → List String
  | [], [] => []
  | [], acc => [String.mk acc.reverse]
  | c :: cs, acc =>
    if isSpaceChar c then
      (if acc.isEmpty then wordsAux cs [] else String.mk acc.reverse :: wordsAux cs [])
    else wordsAux cs (c :: acc)

/-- Whitespace-run splitting of a string into words (Python `str.split()`). -/
def strWords (s : String) : List String :=
  wordsAux s.toList []

/-- Python `str.strip()` on a character list. -/
def stripChars (l : List Char) : List Char :=
  ((l.dropWhile isSpaceChar).reverse.dropWhile isSpaceChar).reverse

/-- Python `str.strip()`. -/
def stripStr (s : String) : String :=
  String.mk (stripChars s.toList)

/-- Unicode NFKD decomposition (`unicodedata.normalize("NFKD", ·)`), embedded
for the characters exercised by this development: Latin letters with acute or
tilde or diaeresis decompose into the base letter followed by the combining
mark; ASCII characters are their own decomposition. -/
def nfkdChar (c : Char) : List Char :=
  if c = 'á' then ['a', '́'] else
  if c = 'é' then ['e', '́'] else
  if c = 'í' then ['i', '́'] else
  if c = 'ó' then ['o', '́'] else
  if c = 'ú' then ['u', '́'] else
  if c = 'ñ' then ['n', '̃'] else
  if c = 'ü' then ['u', '̈'] else
  if c = 'Á' then ['A', '́'] else
  if c = 'É' then ['E', '́'] else
  if c = 'Í' then ['I', '́'] else
  if c = 'Ó' then ['O', '́'] else
  if c = 'Ú' then ['U', '́'] else
  if c = 'Ñ' then ['N', '̃'] else
  if c = 'Ü' then ['U', '̈'] else
  [c]

/-- `str.encode("ascii", "ignore")`: keep only code points below 128. -/
def asciiFold (l : List Char) : List Char :=
  l.filter (fun c => c.toNat ≤ 127)

/-- `normalize_player_name` (src/core/util.py:31-38): NFKD-decompose, drop
non-ASCII code points, strip, and collapse internal whitespace runs to single
spaces; null/empty input yields the empty string. -/
def normalize_player_name (name : Option String) : String :=
  match name with
  | none => ""
  | some s =>
    if s = "" then ""
    else
      let folded := asciiFold ((s.toList.map nfkdChar).flatten)
      String.intercalate " " (wordsAux folded [])

/-- Characters kept by `_PUNCT_RE` removal: `[a-z0-9 ]`. -/
def keepComparableChar (c : Char) : Bool :=
  ('a' ≤ c && c ≤ 'z') || ('0' ≤ c && c ≤ '9') || c = ' '

/-- `comparable_name` (src/core/util.py:41-44): normalized name, lowercased,
with every character outside `[a-z0-9 ]` removed. -/
def comparable_name (name : Option String) : String :=
  String.mk (((normalize_player_name name).toList.map Char.toLower).filter keepComparableChar)

/-- `percentile_from_rank` (src/core/util.py:52-55): `0` when `total ≤ 1`,
otherwise `max(rank - 1, 0) / (total - 1) * 100`. -/
def percentile_from_rank (rank total : ℤ) : ℚ :=
  if total ≤ 1 then 0
  else ((max (rank - 1) 0 : ℤ) : ℚ) / ((total : ℚ) - 1) * 100

/-- ASCII digit test (the entry-name strings here are ASCII). -/
def isDigitChar (c : Char) : Bool :=
  '0' ≤ c && c ≤ '9'

/-- Numeric value of a digit string (`int(...)` on a `\d+` regex group). -/
def natOfDigits (ds : List Char) : ℕ :=
  ds.foldl (fun n c => n * 10 + (c.toNat - 48)) 0

/-- Matcher for the optional trailing group of `ENTRY_PATTERN`
(src/core/ingest.py:25), `\s*\((\d+)(\s*/\s*(\d+))?\)` anchored to the whole
remainder: returns the `used` group and the optional `max` group. The inner
optional group is tried first (greedy) and on failure the match falls back to
a bare `(\d+)\)` ending, exactly as the backtracking engine does. -/
def parenMatch (r : List Char) : Option (ℕ × Option ℕ) :=
  match r.dropWhile isSpaceChar with
  | '(' :: r2 =>
    let ds := r2.takeWhile isDigitChar
    let r3 := r2.dropWhile isDigitChar
    if ds.isEmpty then none
    else
      let used := natOfDigits ds
      match r3.dropWhile isSpaceChar with
      | '/' :: r5 =>
        let r6 := r5.dropWhile isSpaceChar
        let ds2 := r6.takeWhile isDigitChar
        let r7 := r6.dropWhile isDigitChar
        if ds2.isEmpty then (if r3 = [')'] then some (used, none) else none)
        else if r7 = [')'] then some (used, some (natOfDigits ds2))
        else (if r3 = [')'] then some (used, none) else none)
      | _ => if r3 = [')'] then some (used, none) else none
  | _ => none

/-- Lazy scan of `ENTRY_PATTERN`'s `(.+?)` username group: the username grows
one character at a time (never across a newline, which `.` cannot match), and
at each split the greedy optional parenthetical is tried against the entire
remainder before the end-of-string alternative. `pre` is the reversed
username accumulated so far. -/
def goEntry : List Char → List Char → Option (List Char × Option ℕ × Option ℕ)
  | pre, [] =>
    match parenMatch [] with
    | some (u, m) => some (pre.reverse, some u, m)
    | none => some (pre.reverse, none, none)
  | pre, c :: rest =>
    match parenMatch (c :: rest) with
    | some (u, m) => some (pre.reverse, some u, m)
    | none => if c = '\n' then none else goEntry (c :: pre) rest

/-- Full-string match of `ENTRY_PATTERN` against a (pre-stripped) string:
`^(.+?)(?:\s*\((\d+)(?:\s*/\s*(\d+))?\))?$`. -/
def entryMatch (s : List Char) : Option (List Char × Option ℕ × Option ℕ) :=
  match s with
  | [] => none
  | c :: rest => if c = '\n' then none else goEntry [c] rest

/-- Result record of `parse_entry_name`. -/
structure EntryNameParts where
  username : String
  entries_used : ℕ
  entries_max : ℕ
deriving DecidableEq, Repr

/-- `parse_entry_name` (src/core/ingest.py:36-48): non-string input (modelled
as `none`) yields `("", 1, 1)`; otherwise the stripped value is matched
against `ENTRY_PATTERN`; a missing `used` group defaults to 1 and a missing
`max` group defaults to `max(used, 1)`. -/
def parse_entry_name (value : Option String) : EntryNameParts :=
  match value with
  | none => ⟨"", 1, 1⟩
  | some v =>
    let v' := stripStr v
    match entryMatch v'.toList with
    | none => ⟨v', 1, 1⟩
    | some (u, usedOpt, maxOpt) =>
      let used := usedOpt.getD 1
      ⟨stripStr (String.mk u), used, maxOpt.getD (max used 1)⟩

/-- `LINEUP_SLOTS` (src/core/ingest.py:23). -/
def LINEUP_SLOTS : List String := ["PG", "SG", "SF", "PF", "C", "G", "F", "UTIL"]

/-- Python `str.upper()` (character-wise ASCII case mapping). -/
def strUpper (t : String) : String :=
  String.mk (t.toList.map Char.toUpper)

/-- Case-insensitive membership of a token in the roster-slot vocabulary
(`token.upper() in LINEUP_SLOT_SET`). -/
def isSlotToken (t : String) : Bool :=
  LINEUP_SLOTS.contains (strUpper t)

/-- Flush of the lineup tokenizer's accumulator (src/core/ingest.py:61-64 and
69-72): emits a `(slot, player)` pair only when a slot is current, the token
accumulator is non-empty and the normalized joined name is non-empty. -/
def flushLineup (cur : Option String) (acc : List String) : List (String × String) :=
  match cur with
  | none => []
  | some slot =>
    if acc.isEmpty then []
    else
      let name := normalize_player_name (some (String.intercalate " " acc))
      if name = "" then [] else [(slot, name)]

/-- The token loop of `parse_lineup` (src/core/ingest.py:58-72): a slot token
flushes the current accumulator and starts a new slot; any other token is
appended to the accumulator; the final accumulator is flushed at end of
input. -/
def goLineup : Option String → List String → List String → List (String × String)
  | cur, acc, [] => flushLineup cur acc
  | cur, acc, t :: ts =>
    if isSlotToken t then flushLineup cur acc ++ goLineup (some (strUpper t)) [] ts
    else goLineup cur (acc ++ [t]) ts

/-- `parse_lineup` (src/core/ingest.py:51-73): non-string input yields `[]`;
otherwise the string is whitespace-split and scanned by the slot/accumulator
state machine. -/
def parse_lineup (value : Option String) : List (String × String) :=
  match value with
  | none => []
  | some s => goLineup none [] (strWords s)

/-- Code-point lexicographic comparison of character lists: how Python
compares strings. -/
def lexLeB : List Char → List Char → Bool
  | [], _ => true
  | _ :: _, [] => false
  | a :: as, b :: bs =>
    if a.toNat < b.toNat then true
    else if b.toNat < a.toNat then false
    else lexLeB as bs

/-- Python string comparison used by `sorted`. -/
def strLeB (a b : String) : Bool :=
  lexLeB a.toList b.toList

/-- Python `sorted` on strings (lexicographic by code point; any sorting
algorithm produces the same list for a total order). -/
def sortStrings (l : List String) : List String :=
  List.insertionSort (fun a b => strLeB a b = true) l

/-- The canonical lineup key (src/core/ingest.py:108):
`"|".join(sorted(players))` — the parsed player names sorted and joined,
duplicates retained. -/
def canonical_lineup_key (players : List String) : String :=
  String.intercalate "|" (sortStrings players)

/-- Canonical lineup key as the specification's words describe it
("sorted-unique player names joined by a separator"): duplicates collapsed
before sorting and joining. Stated only for comparison with
`canonical_lineup_key` above. -/
def specCanonicalLineupKey (players : List String) : String :=
  String.intercalate "|" (sortStrings players.dedup)

/-- One row of the standings sheet restricted to the columns the entry split
uses (src/core/ingest.py:92-110); `lineup` is `none` for a null `Lineup`
cell. -/
structure RawStandingsRow where
  entry_id : ℕ
  entry_name : Option String
  rank : ℤ
  points : ℚ
  lineup : Option String
deriving DecidableEq, Repr

/-- An entry row after ingestion (the columns the claims are about). -/
structure Entry where
  entry_id : ℕ
  rank : ℤ
  points : ℚ
  percentile : ℚ
  username : String
  lineup_players : List String
  canonical_lineup_key : String
  dupe_count : ℕ
deriving DecidableEq, Repr

/-- `drop_duplicates(subset=["EntryId"])` (src/core/ingest.py:93): keep the
first row for each `entry_id`. -/
def dedupByEntryId : List ℕ → List RawStandingsRow → List RawStandingsRow
  | _, [] => []
  | seen, r :: rs =>
    if r.entry_id ∈ seen then dedupByEntryId seen rs
    else r :: dedupByEntryId (r.entry_id :: seen) rs

/-- The parsed player names of a raw row's lineup string. -/
def rawLineupPlayers (r : RawStandingsRow) : List String :=
  (parse_lineup r.lineup).map Prod.snd

/-- The canonical lineup key of a raw row. -/
def rawCanonicalKey (r : RawStandingsRow) : String :=
  canonical_lineup_key (rawLineupPlayers r)

/-- The entry pipeline of `ingest_contest` (src/core/ingest.py:92-110): keep
rows with a non-null lineup, de-duplicate by `entry_id` keeping the first
occurrence, parse names and lineups, compute the canonical key, and set
`dupe_count` to the group size of the row's canonical key over the
de-duplicated rows (`groupby(...).transform("count")`). Percentiles are
filled in afterwards by `enrich_with_percentiles`. -/
def processEntries (rows : List RawStandingsRow) : List Entry :=
  let deduped := dedupByEntryId [] (rows.filter (fun r => r.lineup.isSome))
  deduped.map (fun r =>
    { entry_id := r.entry_id
      rank := r.rank
      points := r.points
      percentile := 0
      username := (parse_entry_name r.entry_name).username
      lineup_players := rawLineupPlayers r
      canonical_lineup_key := rawCanonicalKey r
      dupe_count := deduped.countP (fun x => rawCanonicalKey x = rawCanonicalKey r) })

/-- `enrich_with_percentiles` (src/core/aggregate.py:220-224): assign each
entry `percentile_from_rank(rank, total)` with `total` the table length. -/
def enrich_with_percentiles (entries : List Entry) : List Entry :=
  entries.map (fun e => { e with percentile := percentile_from_rank e.rank entries.length })

/-- `sorted(dict.fromkeys(players))` (src/core/aggregate.py:56): the unique
player names of a lineup, sorted. -/
def uniquePlayers (players : List String) : List String :=
  sortStrings players.dedup

/-- The size-`size` combinations one entry generates in `_combo_records`
(src/core/aggregate.py:52-57): nothing when the (duplicate-retaining) player
list is empty or shorter than `size`; otherwise every size-`size`
combination of the unique sorted player names. -/
def entryCombos (size : ℕ) (e : Entry) : List (List String) :=
  if e.lineup_players.isEmpty || e.lineup_players.length < size then []
  else List.sublistsLen size (uniquePlayers e.lineup_players)

/-- The `entry_ids` list accumulated for one combo key by the loop of
`_combo_records` (src/core/aggregate.py:57-62): each entry, in table order,
appends its `entry_id` once per occurrence of the key among its generated
combinations. -/
def comboEntryIds (entries : List Entry) (size : ℕ) (key : List String) : List ℕ :=
  entries.foldl (fun acc e => acc ++ List.replicate ((entryCombos size e).count key) e.entry_id) []

/-- One row of the exploded (entry × roster slot) join, restricted to the
columns `compute_user_exposure` reads. -/
structure ExplodedRow where
  entry_id : ℕ
  username : String
  player : String
deriving DecidableEq, Repr

/-- One row of the field-players table, restricted to the columns
`compute_user_exposure` reads. -/
structure FieldPlayerRow where
  player : String
  field_pct : ℚ
deriving DecidableEq, Repr

/-- One row of the user-exposure table; `user_exposure_pct` is `none` when
the user's total lineup count is zero (pandas `NA` after `replace({0: NA})`). -/
structure ExposureRow where
  username : String
  player : String
  entry_count : ℕ
  user_total_lineups : ℕ
  user_exposure_pct : Option ℚ
  field_pct : ℚ
  delta_vs_field : ℚ
deriving DecidableEq, Repr

/-- A user's total distinct lineup count: distinct `entry_id`s among the
user's entry rows (`entries.groupby("username")[["entry_id"]].nunique()`,
src/core/aggregate.py:24). -/
def userTotalLineups (entries : List Entry) (u : String) : ℕ :=
  (((entries.filter (fun e => e.username = u)).map Entry.entry_id).dedup).length

/-- Distinct contributing entries for a (username, player) group:
`nunique` of `entry_id` over the matching exploded rows
(src/core/aggregate.py:26-34). -/
def exposureEntryCount (exploded : List ExplodedRow) (u p : String) : ℕ :=
  (((exploded.filter (fun x => x.username = u && x.player = p)).map ExplodedRow.entry_id).dedup).length

/-- `compute_user_exposure` (src/core/aggregate.py:23-42): one row per
distinct (username, player) pair of the exploded join; exposure percentage is
`entry_count / user_total_lineups * 100` (missing when the total is zero);
`field_pct` is looked up in the field table and defaults to 0;
`delta_vs_field` subtracts it from the exposure percentage (0 when missing). -/
def compute_user_exposure (entries : List Entry) (exploded : List ExplodedRow)
    (field_players : List FieldPlayerRow) : List ExposureRow :=
  ((exploded.map (fun x => (x.username, x.player))).dedup).map (fun up =>
    let cnt := exposureEntryCount exploded up.1 up.2
    let total := userTotalLineups entries up.1
    let pct : Option ℚ := if total = 0 then none else some ((cnt : ℚ) / (total : ℚ) * 100)
    let fpct := ((field_players.find? (fun f => f.player = up.2)).map FieldPlayerRow.field_pct).getD 0
    { username := up.1
      player := up.2
      entry_count := cnt
      user_total_lineups := total
      user_exposure_pct := pct
      field_pct := fpct
      delta_vs_field := pct.getD 0 - fpct })

/-- `apply_percentile_filter` (src/core/aggregate.py:211-217): when a
percentile bound is given keep rows with `percentile ≤` it, then when a rank
bound is given keep rows with `rank ≤` it. -/
def apply_percentile_filter (entries : List Entry) (percentile : Option ℚ) (rank : Option ℤ) :
    List Entry :=
  let f1 := match percentile with
    | none => entries
    | some p => entries.filter (fun e => e.percentile ≤ p)
  match rank with
  | none => f1
  | some r => f1.filter (fun e => e.rank ≤ r)

/-- A salary-sheet record restricted to the columns the lookup indexes use
(`name` is the normalized `Name` column). -/
structure SalaryRecord where
  name : String
  salary : Option ℚ
deriving DecidableEq, Repr

/-- Python `dict` assignment `d[k] = v` on an insertion-ordered association
list: an existing binding of `k` is overwritten in place, otherwise the
binding is appended. -/
def insertReplace : List (String × SalaryRecord) → String → SalaryRecord → List (String × SalaryRecord)
  | [], k, v => [(k, v)]
  | (k', v') :: t, k, v =>
    if k' = k then (k, v) :: t else (k', v') :: insertReplace t k v

/-- The secondary comparable-name index build of `ingest_contest`
(src/core/ingest.py:160-167): for each salary record in sheet order,
`salary_lookup_secondary[comparable_name(name)] = record`. -/
def buildSecondaryLookup (records : List SalaryRecord) : List (String × SalaryRecord) :=
  records.foldl (fun idx r => insertReplace idx (comparable_name (some r.name)) r) []

/-- `salary_lookup_secondary.get(key)`. -/
def lookupSecondary (idx : List (String × SalaryRecord)) (k : String) : Option SalaryRecord :=
  (idx.find? (fun p => p.1 = k)).map Prod.snd

/-- The raw name `O'Neal Jr.` (built character by character). -/
def oNealJrRaw : String :=
  String.mk ['O', '\x27', 'N', 'e', 'a', 'l', ' ', 'J', 'r', '.']

/-! ## Order properties of the string comparison -/

theorem char_eq_of_toNat_eq {a b : Char} (h : a.toNat = b.toNat) : a = b := by
  have hv : a.val = b.val := UInt32.eq_of_val_eq (Fin.ext h)
  exact Char.ext hv

theorem lexLeB_total : ∀ a b : List Char, lexLeB a b = true ∨ lexLeB b a = true
  | [], _ => Or.inl rfl
  | _ :: _, [] => Or.inr rfl
  | a :: as, b :: bs => by
    rcases Nat.lt_trichotomy a.toNat b.toNat with h | h | h
    · left
      simp [lexLeB, h]
    · rcases lexLeB_total as bs with ih | ih
      · left
        simp [lexLeB, h, ih]
      · right
        simp [lexLeB, h.symm, ih]
    · right
      simp [lexLeB, h]

theorem lexLeB_trans : ∀ a b c : List Char,
    lexLeB a b = true → lexLeB b c = true → lexLeB a c = true
  | [], _, _, _, _ => rfl
  | _ :: _, [], _, h, _ => by simp [lexLeB] at h
  | _ :: _, _ :: _, [], _, h => by simp [lexLeB] at h
  | a :: as, b :: bs, c :: cs, h1, h2 => by
    simp only [lexLeB] at h1 h2 ⊢
    rcases Nat.lt_trichotomy a.toNat b.toNat with hab | hab | hab <;>
      rcases Nat.lt_trichotomy b.toNat c.toNat with hbc | hbc | hbc
    · simp [show a.toNat < c.toNat by omega]
    · simp [show a.toNat < c.toNat by omega]
    · simp [hab, show ¬ b.toNat < a.toNat by omega, show ¬ b.toNat < c.toNat by omega, hbc] at h2
    · simp [show a.toNat < c.toNat by omega]
    · rw [if_neg (by omega : ¬ a.toNat < b.toNat),
        if_neg (by omega : ¬ b.toNat < a.toNat)] at h1
      rw [if_neg (by omega : ¬ b.toNat < c.toNat),
        if_neg (by omega : ¬ c.toNat < b.toNat)] at h2
      rw [if_neg (by omega : ¬ a.toNat < c.toNat),
        if_neg (by omega : ¬ c.toNat < a.toNat)]
      exact lexLeB_trans as bs cs h1 h2
    · simp [hab, show ¬ a.toNat < b.toNat by omega, show ¬ b.toNat < c.toNat by omega, hbc] at h1 h2
    · simp [show ¬ a.toNat < b.toNat by omega, hab] at h1
    · simp [show ¬ a.toNat < b.toNat by omega, hab] at h1
    · simp [show ¬ a.toNat < b.toNat by omega, hab] at h1

theorem lexLeB_antisymm : ∀ a b : List Char,
    lexLeB a b = true → lexLeB b a = true → a = b
  | [], [], _, _ => rfl
  | [], _ :: _, _, h => by simp [lexLeB] at h
  | _ :: _, [], h, _ => by simp [lexLeB] at h
  | a :: as, b :: bs, h1, h2 => by
    simp only [lexLeB] at h1 h2
    rcases Nat.lt_trichotomy a.toNat b.toNat with hab | hab | hab
    · simp [show ¬ b.toNat < a.toNat by omega, hab] at h2
    · rw [if_neg (by omega : ¬ a.toNat < b.toNat),
        if_neg (by omega : ¬ b.toNat < a.toNat)] at h1
      rw [if_neg (by omega : ¬ b.toNat < a.toNat),
        if_neg (by omega : ¬ a.toNat < b.toNat)] at h2
      have hc : a = b := char_eq_of_toNat_eq hab
      have ht : as = bs := lexLeB_antisymm as bs h1 h2
      rw [hc, ht]
    · simp [show ¬ a.toNat < b.toNat by omega, hab] at h1

instance : IsTotal String fun a b => strLeB a b = true :=
  ⟨fun a b => lexLeB_total a.toList b.toList⟩

instance : IsTrans String fun a b => strLeB a b = true :=
  ⟨fun a b c => lexLeB_trans a.toList b.toList c.toList⟩

instance : IsAntisymm String fun a b => strLeB a b = true :=
  ⟨fun a b h1 h2 => by
    have h := lexLeB_antisymm a.toList b.toList h1 h2
    exact String.toList_inj.mp h⟩

/-! ## Theorems settling the claims -/

/-- C9: `comparable_name` sends `José Núñez` and `Jose Nunez` to the same
string, and sends `O'Neal Jr.` to `oneal jr` (diacritics ASCII-folded,
lowercased, characters outside `[a-z0-9 ]` removed). -/
theorem claim_C9_comparable_name :
    comparable_name (some "José Núñez") = comparable_name (some "Jose Nunez")
    ∧ comparable_name (some oNealJrRaw) = "oneal jr" := by
  constructor <;> decide

/-- C2 counterexample: the claim asserts the result lies in `[0, 100]` for
every rank and total, but `percentile_from_rank 3 2 = 200`. -/
theorem claim_C2_counterexample :
    percentile_from_rank 3 2 = 200 ∧ ¬ percentile_from_rank 3 2 ≤ 100 := by
  constructor <;> norm_num [percentile_from_rank]

/-- C2 amended: `percentile_from_rank` returns 0 when `total ≤ 1` and
`max(rank-1,0)/(total-1) × 100` otherwise; the result is always ≥ 0,
non-decreasing in rank, equal to 0 when there is exactly one entry, and lies
in `[0, 100]` whenever `rank ≤ total` (for `rank > total` it exceeds 100). -/
theorem claim_C2_amended (rank rank' total : ℤ) :
    0 ≤ percentile_from_rank rank total
    ∧ (rank ≤ total → percentile_from_rank rank total ≤ 100)
    ∧ (rank ≤ rank' → percentile_from_rank rank total ≤ percentile_from_rank rank' total)
    ∧ (total = 1 → percentile_from_rank rank total = 0) := by
  unfold percentile_from_rank
  by_cases h : total ≤ 1
  · simp [h]
  · have h2 : (2 : ℤ) ≤ total := by omega
    have hden : (0 : ℚ) < (total : ℚ) - 1 := by
      have : (2 : ℚ) ≤ (total : ℚ) := by exact_mod_cast h2
      linarith
    have hnum : ∀ r : ℤ, (0 : ℚ) ≤ ((max (r - 1) 0 : ℤ) : ℚ) := by
      intro r
      exact_mod_cast le_max_right (r - 1) 0
    refine ⟨?_, ?_, ?_, ?_⟩
    · simp only [if_neg h]
      exact mul_nonneg (div_nonneg (hnum rank) hden.le) (by norm_num)
    · intro hrt
      simp only [if_neg h]
      have hle : ((max (rank - 1) 0 : ℤ) : ℚ) ≤ (total : ℚ) - 1 := by
        have hz : (max (rank - 1) 0 : ℤ) ≤ total - 1 := by omega
        calc ((max (rank - 1) 0 : ℤ) : ℚ) ≤ ((total - 1 : ℤ) : ℚ) := by exact_mod_cast hz
          _ = (total : ℚ) - 1 := by push_cast; ring
      have hdiv : ((max (rank - 1) 0 : ℤ) : ℚ) / ((total : ℚ) - 1) ≤ 1 :=
        (div_le_one hden).mpr hle
      calc ((max (rank - 1) 0 : ℤ) : ℚ) / ((total : ℚ) - 1) * 100
          ≤ 1 * 100 := mul_le_mul_of_nonneg_right hdiv (by norm_num)
        _ = 100 := by norm_num
    · intro hrr
      simp only [if_neg h]
      have hmax : ((max (rank - 1) 0 : ℤ) : ℚ) ≤ ((max (rank' - 1) 0 : ℤ) : ℚ) := by
        have hz : (max (rank - 1) 0 : ℤ) ≤ max (rank' - 1) 0 := by omega
        exact_mod_cast hz
      gcongr
    · intro h1
      omega

/-- C2 amended witness at `rank = 2, rank' = 3, total = 4` and `total = 1`. -/
theorem claim_C2_amended_witness :
    0 ≤ percentile_from_rank 2 4
    ∧ percentile_from_rank 2 4 ≤ 100
    ∧ percentile_from_rank 2 4 ≤ percentile_from_rank 3 4
    ∧ percentile_from_rank 2 1 = 0 :=
  ⟨(claim_C2_amended 2 3 4).1,
   (claim_C2_amended 2 3 4).2.1 (by decide),
   (claim_C2_amended 2 3 4).2.2.1 (by decide),
   (claim_C2_amended 2 3 1).2.2.2 rfl⟩

/-- C1 counterexample: the key is not de-duplicated. The lineups
`PG A SG A SF B` and `PG A SG B` have the same player set (`dedup` of the
parsed players agrees), yet their canonical keys differ (`A|A|B` ≠ `A|B`);
the code's key also differs from the spec-worded de-duplicated key. -/
theorem claim_C1_counterexample :
    (((parse_lineup (some "PG A SG A SF B")).map Prod.snd).dedup
      = ((parse_lineup (some "PG A SG B")).map Prod.snd).dedup)
    ∧ canonical_lineup_key ((parse_lineup (some "PG A SG A SF B")).map Prod.snd)
        ≠ canonical_lineup_key ((parse_lineup (some "PG A SG B")).map Prod.snd)
    ∧ canonical_lineup_key ((parse_lineup (some "PG A SG A SF B")).map Prod.snd)
        ≠ specCanonicalLineupKey ((parse_lineup (some "PG A SG A SF B")).map Prod.snd) := by
  refine ⟨by decide, by decide, by decide⟩

/-- C1 amended: `canonical_lineup_key` is the parsed player names sorted and
joined by `|` with duplicates retained, so any two lineups whose player
multisets agree (ignoring slot assignment) receive the same key. -/
theorem claim_C1_amended (l1 l2 : List String) (h : l1.Perm l2) :
    canonical_lineup_key l1 = canonical_lineup_key l2 := by
  unfold canonical_lineup_key sortStrings
  congr 1
  exact List.eq_of_perm_of_sorted
    ((List.perm_insertionSort _ l1).trans (h.trans (List.perm_insertionSort _ l2).symm))
    (List.sorted_insertionSort _ l1) (List.sorted_insertionSort _ l2)

/-- C1 amended witness: lineups `[B, A]` and `[A, B]` share a key. -/
theorem claim_C1_amended_witness :
    canonical_lineup_key ["B", "A"] = canonical_lineup_key ["A", "B"] :=
  claim_C1_amended ["B", "A"] ["A", "B"] (by decide)

/-- C6: the percentile/rank filter keeps an entry iff it is in the input and
its percentile is within the percentile bound when one is set and its rank is
within the rank bound when one is set (both inclusive; an unset bound imposes
no constraint). -/
theorem claim_C6_percentile_filter (entries : List Entry) (P : Option ℚ) (R : Option ℤ)
    (e : Entry) :
    e ∈ apply_percentile_filter entries P R ↔
      e ∈ entries ∧ (∀ p ∈ P, e.percentile ≤ p) ∧ (∀ r ∈ R, e.rank ≤ r) := by
  cases P <;> cases R <;>
    (simp [apply_percentile_filter, List.mem_filter, Option.mem_def, and_assoc]; try tauto)

theorem lookup_insertReplace_self (idx : List (String × SalaryRecord)) (k : String)
    (v : SalaryRecord) : lookupSecondary (insertReplace idx k v) k = some v := by
  induction idx with
  | nil => simp [insertReplace, lookupSecondary]
  | cons p t ih =>
    obtain ⟨k', v'⟩ := p
    by_cases h : k' = k
    · simp [insertReplace, h, lookupSecondary]
    · simpa [insertReplace, h, lookupSecondary] using ih

theorem lookup_insertReplace_ne (idx : List (String × SalaryRecord)) (k k' : String)
    (v : SalaryRecord) (h : k' ≠ k) :
    lookupSecondary (insertReplace idx k' v) k = lookupSecondary idx k := by
  induction idx with
  | nil => simp [insertReplace, lookupSecondary, h]
  | cons p t ih =>
    obtain ⟨k0, v0⟩ := p
    by_cases h0 : k0 = k'
    · simp [insertReplace, h0, lookupSecondary, h]
    · by_cases h1 : k0 = k
      · subst h1
        simp [insertReplace, h0, lookupSecondary, Ne.symm h]
      · simpa [insertReplace, h0, lookupSecondary, h1] using ih

theorem buildSecondary_foldl (records : List SalaryRecord)
    (idx : List (String × SalaryRecord)) (k : String) :
    lookupSecondary
        (records.foldl (fun idx r => insertReplace idx (comparable_name (some r.name)) r) idx) k
      = ((records.filter (fun r => comparable_name (some r.name) = k)).getLast?).elim
          (lookupSecondary idx k) some := by
  induction records generalizing idx with
  | nil => simp
  | cons r rs ih =>
    rw [List.foldl_cons, ih]
    by_cases hk : comparable_name (some r.name) = k
    · cases hl : (rs.filter (fun x => comparable_name (some x.name) = k)).getLast? with
      | none =>
        have hfe : (rs.filter (fun x => comparable_name (some x.name) = k)) = [] := by
          cases hf : (rs.filter (fun x => comparable_name (some x.name) = k)) with
          | nil => rfl
          | cons a l => rw [hf] at hl; simp [List.getLast?] at hl
        simp only [hl, Option.elim]
        rw [List.filter_cons_of_pos (by simp [hk]), hfe]
        simp [lookup_insertReplace_self idx k r, hk]
      | some a =>
        simp only [hl, Option.elim]
        rw [List.filter_cons_of_pos (by simp [hk])]
        have : ((r :: rs.filter (fun x => comparable_name (some x.name) = k)).getLast?) = some a := by
          cases hf : (rs.filter (fun x => comparable_name (some x.name) = k)) with
          | nil => rw [hf] at hl; simp at hl
          | cons b l => rw [hf] at hl; rw [List.getLast?_cons_cons]; exact hl
        rw [this]
    · rw [List.filter_cons_of_neg (by simp [hk])]
      rw [lookup_insertReplace_ne idx k (comparable_name (some r.name)) r hk]

/-- C3 counterexample: the raw names `ONeal` and `ONEAL` are distinct but
share the comparable key; after building the secondary index over both
records in order, the lookup returns the second (later) record, not the
first — the build is last-wins, not first-wins. -/
theorem claim_C3_counterexample :
    (SalaryRecord.mk "ONeal" (some 100)).name ≠ (SalaryRecord.mk "ONEAL" (some 200)).name
    ∧ comparable_name (some "ONeal") = comparable_name (some "ONEAL")
    ∧ lookupSecondary
        (buildSecondaryLookup [SalaryRecord.mk "ONeal" (some 100), SalaryRecord.mk "ONEAL" (some 200)])
        (comparable_name (some "ONeal"))
        = some (SalaryRecord.mk "ONEAL" (some 200))
    ∧ SalaryRecord.mk "ONEAL" (some 200) ≠ SalaryRecord.mk "ONeal" (some 100) := by
  refine ⟨by decide, by decide, by decide, by decide⟩

/-- C3 amended: when several raw salary-sheet names map to the same
comparable key, the secondary index build keeps the record of the LAST such
name encountered: the lookup of a key returns the last record of the sheet
whose comparable name equals the key. -/
theorem claim_C3_amended (records : List SalaryRecord) (k : String) :
    lookupSecondary (buildSecondaryLookup records) k
      = (records.filter (fun r => comparable_name (some r.name) = k)).getLast? := by
  unfold buildSecondaryLookup
  rw [buildSecondary_foldl records [] k]
  cases hl : (records.filter (fun r => comparable_name (some r.name) = k)).getLast? <;>
    simp [lookupSecondary]

/-- C5: after the entry pipeline (lineup-row split, entry-id de-duplication,
canonical-key computation), every entry's `dupe_count` is at least 1 and
equals the exact number of entries of the resulting table sharing its
canonical lineup key. -/
theorem claim_C5_dupe_count (rows : List RawStandingsRow) (e : Entry)
    (he : e ∈ processEntries rows) :
    1 ≤ e.dupe_count
    ∧ e.dupe_count = (processEntries rows).countP
        (fun x => x.canonical_lineup_key = e.canonical_lineup_key) := by
  unfold processEntries at he ⊢
  rw [List.mem_map] at he
  obtain ⟨r, hr, rfl⟩ := he
  refine ⟨?_, ?_⟩
  · have hpos : 0 < (dedupByEntryId [] (rows.filter fun r => r.lineup.isSome)).countP
        (fun x => rawCanonicalKey x = rawCanonicalKey r) := by
      rw [List.countP_pos_iff]
      exact ⟨r, hr, by simp⟩
    simpa using hpos
  · rw [List.countP_map]
    rfl

/-- C5 witness: three raw rows, one a duplicate `entry_id`, two distinct
rows sharing a lineup player multiset. -/
def rowsC5 : List RawStandingsRow :=
  [⟨1, some "alice", 1, 50, some "PG A SG B"⟩,
   ⟨1, some "alice dup", 99, 0, some "PG Z"⟩,
   ⟨2, some "bob", 2, 40, some "PG B SG A"⟩]

theorem claim_C5_dupe_count_witness :
    1 ≤ (Entry.mk 1 1 50 0 "alice" ["A", "B"] "A|B" 2).dupe_count
    ∧ (Entry.mk 1 1 50 0 "alice" ["A", "B"] "A|B" 2).dupe_count
        = (processEntries rowsC5).countP
            (fun x => x.canonical_lineup_key
              = (Entry.mk 1 1 50 0 "alice" ["A", "B"] "A|B" 2).canonical_lineup_key) :=
  claim_C5_dupe_count rowsC5 (Entry.mk 1 1 50 0 "alice" ["A", "B"] "A|B" 2) (by decide)

theorem nodup_uniquePlayers (players : List String) : (uniquePlayers players).Nodup := by
  unfold uniquePlayers sortStrings
  exact ((List.perm_insertionSort _ _).nodup_iff).mpr (List.nodup_dedup players)

theorem nodup_entryCombos (size : ℕ) (e : Entry) : (entryCombos size e).Nodup := by
  unfold entryCombos
  split
  · exact List.nodup_nil
  · exact List.nodup_sublistsLen size (nodup_uniquePlayers e.lineup_players)

theorem length_entryCombos_le (size : ℕ) (e : Entry) :
    (entryCombos size e).length ≤ Nat.choose (uniquePlayers e.lineup_players).length size := by
  unfold entryCombos
  split
  · exact Nat.zero_le _
  · rw [List.length_sublistsLen]

theorem entryCombos_eq_nil_of_lt (size : ℕ) (e : Entry)
    (h : (uniquePlayers e.lineup_players).length < size) : entryCombos size e = [] := by
  unfold entryCombos
  split
  · rfl
  · apply List.length_eq_zero.mp
    rw [List.length_sublistsLen]
    exact Nat.choose_eq_zero_of_lt h

theorem count_comboFold (size : ℕ) (key : List String) (x : ℕ) :
    ∀ (l : List Entry) (acc : List ℕ),
    (l.foldl (fun acc e => acc ++ List.replicate ((entryCombos size e).count key) e.entry_id) acc).count x
      = acc.count x
        + (l.map (fun e => if e.entry_id = x then (entryCombos size e).count key else 0)).sum
  | [], acc => by simp
  | e :: l, acc => by
    rw [List.foldl_cons, count_comboFold size key x l _]
    rw [List.count_append, List.count_replicate, List.map_cons, List.sum_cons]
    simp only [beq_iff_eq]
    by_cases h : e.entry_id = x
    · subst h
      simp only [if_pos rfl]
      omega
    · simp only [if_neg h, if_neg (show ¬ x = e.entry_id from fun hc => h hc.symm)]
      omega

theorem sum_if_id_eq (g : Entry → ℕ) :
    ∀ (l : List Entry) (e : Entry), e ∈ l → (l.map Entry.entry_id).Nodup →
    (l.map (fun y => if y.entry_id = e.entry_id then g y else 0)).sum = g e
  | e' :: l, e, he, hnd => by
    rw [List.map_cons, List.nodup_cons] at hnd
    rcases List.mem_cons.mp he with rfl | hmem
    · rw [List.map_cons, List.sum_cons, if_pos rfl]
      have hz : (l.map (fun y => if y.entry_id = e.entry_id then g y else 0)).sum = 0 := by
        apply List.sum_eq_zero
        intro z hz
        rcases List.mem_map.mp hz with ⟨y, hy, rfl⟩
        have : y.entry_id ≠ e.entry_id := by
          intro hcontra
          exact hnd.1 (hcontra ▸ List.mem_map_of_mem Entry.entry_id hy)
        rw [if_neg this]
      rw [hz, Nat.add_zero]
    · have hne : e'.entry_id ≠ e.entry_id := by
        intro hcontra
        exact hnd.1 (hcontra ▸ List.mem_map_of_mem Entry.entry_id hmem)
      rw [List.map_cons, List.sum_cons, if_neg hne, Nat.zero_add]
      exact sum_if_id_eq g l e hmem hnd.2

theorem countKeys_eq_one (l : List (List String)) (key : List String)
    (hnd : l.Nodup) (hk : key ∈ l) : l.count key = 1 := by
  induction l with
  | nil => simp at hk
  | cons a t ih =>
    rw [List.nodup_cons] at hnd
    rcases List.mem_cons.mp hk with rfl | hmem
    · rw [List.count_cons_self]
      have hz : t.count key = 0 := by
        rw [List.count_eq_zero]
        exact hnd.1
      omega
    · have hne : key ≠ a := fun hc => hnd.1 (hc ▸ hmem)
      rw [List.count_cons, if_neg (by simpa using Ne.symm hne), Nat.add_zero]
      exact ih hnd.2 hmem

theorem count_comboEntryIds_eq_one (entries : List Entry) (size : ℕ) (e : Entry)
    (key : List String) (he : e ∈ entries) (hid : (entries.map Entry.entry_id).Nodup)
    (hkey : key ∈ entryCombos size e) :
    (comboEntryIds entries size key).count e.entry_id = 1 := by
  unfold comboEntryIds
  rw [count_comboFold size key e.entry_id entries []]
  rw [List.count_nil, Nat.zero_add]
  rw [sum_if_id_eq (fun y => (entryCombos size y).count key) entries e he hid]
  exact countKeys_eq_one (entryCombos size e) key (nodup_entryCombos size e) hkey

/-- C4: for every entry of the table (with globally distinct `entry_id`s,
as ingestion guarantees) and every combo size, the combinations the entry
generates are pairwise-distinct keys numbering at most `C(u, k)` where `u`
is its unique-player count; an entry with fewer than `k` unique players
generates none; and each generated key's accumulated `entry_ids` list
contains that entry's id exactly once. -/
theorem claim_C4_name_combos (entries : List Entry) (size : ℕ) (e : Entry)
    (he : e ∈ entries) (hid : (entries.map Entry.entry_id).Nodup) :
    (entryCombos size e).Nodup
    ∧ (entryCombos size e).length ≤ Nat.choose (uniquePlayers e.lineup_players).length size
    ∧ ((uniquePlayers e.lineup_players).length < size → entryCombos size e = [])
    ∧ (∀ key ∈ entryCombos size e, (comboEntryIds entries size key).count e.entry_id = 1) :=
  ⟨nodup_entryCombos size e, length_entryCombos_le size e,
   fun h => entryCombos_eq_nil_of_lt size e h,
   fun key hk => count_comboEntryIds_eq_one entries size e key he hid hk⟩

/-- C4 witness: two concrete entries. -/
def entC4a : Entry := Entry.mk 1 1 10 0 "u" ["A", "B", "C"] "A|B|C" 1

/-- C4 witness: second concrete entry. -/
def entC4b : Entry := Entry.mk 2 2 5 0 "v" ["A", "B", "D"] "A|B|D" 1

theorem claim_C4_name_combos_witness :
    (entryCombos 2 entC4a).length ≤ Nat.choose (uniquePlayers entC4a.lineup_players).length 2
    ∧ (comboEntryIds [entC4a, entC4b] 2 ["A", "B"]).count entC4a.entry_id = 1 :=
  ⟨(claim_C4_name_combos [entC4a, entC4b] 2 entC4a (by decide) (by decide)).2.1,
   (claim_C4_name_combos [entC4a, entC4b] 2 entC4a (by decide) (by decide)).2.2.2
     ["A", "B"] (by decide)⟩

/-- C7: every row of the user-exposure table satisfies
`user_exposure_pct = entry_count / user_total_lineups × 100` and
`delta_vs_field = user_exposure_pct − field_pct` (whenever the user has at
least one lineup), and `field_pct = 0` when the row's player is absent from
the field table. -/
theorem claim_C7_user_exposure (entries : List Entry) (exploded : List ExplodedRow)
    (field_players : List FieldPlayerRow) (r : ExposureRow)
    (hr : r ∈ compute_user_exposure entries exploded field_players) :
    (0 < r.user_total_lineups →
      r.user_exposure_pct = some ((r.entry_count : ℚ) / (r.user_total_lineups : ℚ) * 100)
      ∧ r.delta_vs_field = (r.entry_count : ℚ) / (r.user_total_lineups : ℚ) * 100 - r.field_pct)
    ∧ ((∀ f ∈ field_players, f.player ≠ r.player) → r.field_pct = 0) := by
  unfold compute_user_exposure at hr
  rw [List.mem_map] at hr
  obtain ⟨up, hup, rfl⟩ := hr
  dsimp only
  constructor
  · intro hpos
    have hne : ¬ userTotalLineups entries up.1 = 0 := by omega
    rw [if_neg hne]
    exact ⟨rfl, by rw [Option.getD_some]⟩
  · intro habs
    have hnone : field_players.find? (fun f => f.player = up.2) = none := by
      rw [List.find?_eq_none]
      intro f hf
      simpa using habs f hf
    rw [hnone]
    rfl

/-- C7 witness data: user `u` with three entries. -/
def entsC7 : List Entry :=
  [Entry.mk 1 1 0 0 "u" ["P", "Q"] "P|Q" 1,
   Entry.mk 2 2 0 0 "u" ["P", "R"] "P|R" 1,
   Entry.mk 3 3 0 0 "u" ["Q", "R"] "Q|R" 1]

/-- C7 witness data: exploded rows; player `P` appears in entries 1 and 2. -/
def explC7 : List ExplodedRow :=
  [ExplodedRow.mk 1 "u" "P", ExplodedRow.mk 2 "u" "P", ExplodedRow.mk 3 "u" "Q"]

/-- C7 witness row: the first row the computation produces for these inputs
(user `u`, player `P`; 2 of the user's 3 lineups contain `P`). The rational
fields are spelled exactly as the computation builds them. -/
def rowC7 : ExposureRow :=
  ExposureRow.mk "u" "P" (exposureEntryCount explC7 "u" "P") (userTotalLineups entsC7 "u")
    (some ((exposureEntryCount explC7 "u" "P" : ℚ) / (userTotalLineups entsC7 "u" : ℚ) * 100))
    0
    ((exposureEntryCount explC7 "u" "P" : ℚ) / (userTotalLineups entsC7 "u" : ℚ) * 100 - 0)

theorem claim_C7_user_exposure_witness :
    rowC7.user_exposure_pct = some ((rowC7.entry_count : ℚ) / (rowC7.user_total_lineups : ℚ) * 100)
    ∧ rowC7.delta_vs_field
        = (rowC7.entry_count : ℚ) / (rowC7.user_total_lineups : ℚ) * 100 - rowC7.field_pct
    ∧ rowC7.field_pct = 0
    ∧ rowC7.user_exposure_pct = some (200 / 3) :=
  ⟨((claim_C7_user_exposure entsC7 explC7 [] rowC7 (List.Mem.head _)).1 (by decide)).1,
   ((claim_C7_user_exposure entsC7 explC7 [] rowC7 (List.Mem.head _)).1 (by decide)).2,
   (claim_C7_user_exposure entsC7 explC7 [] rowC7 (List.Mem.head _)).2 (by simp),
   by
    have e1 : exposureEntryCount explC7 "u" "P" = 2 := by decide
    have e2 : userTotalLineups entsC7 "u" = 3 := by decide
    have h : rowC7.user_exposure_pct = some (((2 : ℕ) : ℚ) / ((3 : ℕ) : ℚ) * 100) := by
      show some ((exposureEntryCount explC7 "u" "P" : ℚ) / (userTotalLineups entsC7 "u" : ℚ) * 100)
        = some (((2 : ℕ) : ℚ) / ((3 : ℕ) : ℚ) * 100)
      rw [e1, e2]
    rw [h]
    exact congrArg some (by push_cast; norm_num)⟩

theorem parenMatch_none_of_no_paren (l : List Char) (h : ∀ c ∈ l, c ≠ '(') :
    parenMatch l = none := by
  unfold parenMatch
  cases hdw : l.dropWhile isSpaceChar with
  | nil => rfl
  | cons c t =>
    have hc : c ∈ l := (List.dropWhile_sublist isSpaceChar).subset (hdw ▸ List.mem_cons_self c t)
    have hne : c ≠ '(' := h c hc
    split
    · rename_i heq
      injection heq with h1 h2
      exact absurd h1 hne
    · rfl

theorem goEntry_no_paren : ∀ (rest pre : List Char), (∀ c ∈ rest, c ≠ '(') →
    goEntry pre rest = some (pre.reverse ++ rest, none, none) ∨ goEntry pre rest = none
  | [], pre, _ => by
    left
    simp [goEntry, parenMatch]
  | c :: rest, pre, h => by
    have hp : parenMatch (c :: rest) = none := parenMatch_none_of_no_paren _ h
    by_cases hc : c = '\n'
    · right
      subst hc
      simp [goEntry, hp]
    · rcases goEntry_no_paren rest (c :: pre) (fun d hd => h d (List.mem_cons_of_mem c hd)) with
        hgo | hgo
      · left
        simp [goEntry, hp, hc, hgo]
      · right
        simp [goEntry, hp, hc, hgo]

theorem parse_entry_name_no_paren (s : String) (hstrip : stripStr s = s)
    (h : ∀ c ∈ s.toList, c ≠ '(') :
    parse_entry_name (some s) = EntryNameParts.mk s 1 1 := by
  simp only [parse_entry_name]
  rw [hstrip]
  cases hs : s.toList with
  | nil =>
    simp only [hs, entryMatch]
  | cons c rest =>
    simp only [hs, entryMatch]
    by_cases hc : c = '\n'
    · rw [if_pos hc]
    · rw [if_neg hc]
      have hrest : ∀ d ∈ rest, d ≠ '(' :=
        fun d hd => h d (hs ▸ List.mem_cons_of_mem c hd)
      rcases goEntry_no_paren rest [c] hrest with hgo | hgo
      · rw [hgo]
        have hmk : String.mk (c :: rest) = s := by
          cases s with
          | mk data => exact congrArg String.mk (hs : data = c :: rest).symm
        simp [hmk, hstrip]
      · rw [hgo]

/-- C8: `parse_entry_name` yields `("", 1, 1)` on non-string input; on a
(stripped) name with no parenthetical both counts default to 1; a trailing
`(USED)` sets `entries_used` and defaults `entries_max` to `max(used, 1)`
(so `(0)` yields `entries_max = 1`); a trailing `(USED/MAX)` sets both. -/
theorem claim_C8_parse_entry_name :
    parse_entry_name none = EntryNameParts.mk "" 1 1
    ∧ (∀ s : String, stripStr s = s → (∀ c ∈ s.toList, c ≠ '(') →
        parse_entry_name (some s) = EntryNameParts.mk s 1 1)
    ∧ parse_entry_name (some "Alice (3)") = EntryNameParts.mk "Alice" 3 3
    ∧ parse_entry_name (some "Dan (0)") = EntryNameParts.mk "Dan" 0 1
    ∧ parse_entry_name (some "Bob (2/9)") = EntryNameParts.mk "Bob" 2 9
    ∧ parse_entry_name (some "  Eve Smith (12 / 150) ") = EntryNameParts.mk "Eve Smith" 12 150 :=
  ⟨rfl, parse_entry_name_no_paren, by decide, by decide, by decide, by decide⟩

/-- C8 witness: the universal no-parenthetical conjunct at a concrete name. -/
theorem claim_C8_parse_entry_name_witness :
    parse_entry_name (some "Carol Smith") = EntryNameParts.mk "Carol Smith" 1 1 :=
  claim_C8_parse_entry_name.2.1 "Carol Smith" (by decide) (by decide)

theorem goLineup_none_acc : ∀ (ts acc : List String),
    goLineup none acc ts = goLineup none [] ts
  | [], _ => rfl
  | t :: ts, acc => by
    by_cases h : isSlotToken t = true
    · simp only [goLineup, h, if_pos, flushLineup]
    · simp only [goLineup, h, if_neg, Bool.false_eq_true, if_false]
      rw [goLineup_none_acc ts (acc ++ [t]), goLineup_none_acc ts ([] ++ [t])]

theorem goLineup_skip_junk : ∀ (junk : List String),
    (∀ t ∈ junk, isSlotToken t = false) → ∀ rest : List String,
    goLineup none [] (junk ++ rest) = goLineup none [] rest
  | [], _, _ => rfl
  | j :: junk, h, rest => by
    have hj : ¬ isSlotToken j = true := by
      rw [h j (List.mem_cons_self j junk)]
      exact Bool.false_ne_true
    rw [List.cons_append]
    show (if isSlotToken j = true then _ else goLineup none ([] ++ [j]) (junk ++ rest)) = _
    rw [if_neg hj, goLineup_none_acc (junk ++ rest) ([] ++ [j])]
    exact goLineup_skip_junk junk (fun t ht => h t (List.mem_cons_of_mem j ht)) rest

/-- C10: leading non-slot tokens of a lineup string are discarded entirely —
parsing the string equals running the tokenizer on the remaining tokens
alone — and a string with no slot token at all parses to the empty
sequence. -/
theorem claim_C10_parse_lineup (s : String) (junk rest : List String)
    (hsplit : strWords s = junk ++ rest)
    (hjunk : ∀ t ∈ junk, isSlotToken t = false) :
    parse_lineup (some s) = goLineup none [] rest
    ∧ ((∀ t ∈ strWords s, isSlotToken t = false) → parse_lineup (some s) = []) := by
  constructor
  · show goLineup none [] (strWords s) = _
    rw [hsplit]
    exact goLineup_skip_junk junk hjunk rest
  · intro hall
    show goLineup none [] (strWords s) = []
    have h := goLineup_skip_junk (strWords s) hall []
    rw [List.append_nil] at h
    exact h

/-- C10 witness: two junk tokens before the first slot token, and an input
with no slot tokens at all. -/
theorem claim_C10_parse_lineup_witness :
    parse_lineup (some "LeBron James PG Curry") = goLineup none [] ["PG", "Curry"]
    ∧ parse_lineup (some "no slot words here") = [] :=
  ⟨(claim_C10_parse_lineup "LeBron James PG Curry" ["LeBron", "James"] ["PG", "Curry"]
      (by decide) (by decide)).1,
   (claim_C10_parse_lineup "no slot words here" ["no", "slot", "words", "here"] []
      (by decide) (by decide)).2 (by decide)⟩

end DfsAnalyzer
